import Mathlib

/-!
Formal model of the const-tweaker browser client script.

The client script keeps a `Map` of edited tunables (`changed_values`),
splits qualified names on the `"::"` separator (`split_name`), renders a
declaration line per edit (`changed_value`), sends updates to the host
(`send`), and polls `/should_refresh` (`poll`).

JavaScript strings are modelled as `List Char` (`Str`).  The string
operations the script uses — `split("::")`, `join("::")`,
`replace("::", "_")` (first occurrence only), `includes`-style search —
are defined here specialised to the two-character separator, with
JavaScript's left-to-right, non-overlapping scan semantics.
-/

namespace ConstTweaker

/-- JavaScript strings, modelled as lists of characters. -/
abbrev Str := List Char

/-- Coerce a Lean string literal to the model type. -/
def toL (s : String) : Str := s.toList

/-- JavaScript `source.split("::")`: `String.prototype.split` with the
two-character separator `"::"`; scans left to right, consuming each
non-overlapping occurrence of the separator. -/
def splitColons : Str → List Str
  | [] => [[]]
  | [c] => [[c]]
  | c1 :: c2 :: rest =>
    if c1 = ':' ∧ c2 = ':' then [] :: splitColons rest
    else
      match splitColons (c2 :: rest) with
      | [] => [[c1]]
      | s :: ss => (c1 :: s) :: ss

/-- JavaScript `array.join("::")`: `Array.prototype.join` with `"::"`. -/
def joinColons : List Str → Str
  | [] => []
  | [s] => s
  | s :: s' :: ss => s ++ ':' :: ':' :: joinColons (s' :: ss)

/-- Whether the string contains the contiguous substring `"::"`. -/
def hasColons : Str → Bool
  | c1 :: c2 :: rest => (c1 = ':' && c2 = ':') || hasColons (c2 :: rest)
  | _ => false

/-- JavaScript `s.replace("::", "_")`: `String.prototype.replace` with a
string pattern, which replaces only the FIRST occurrence. -/
def replaceColons : Str → Str
  | [] => []
  | [c] => [c]
  | c1 :: c2 :: rest =>
    if c1 = ':' ∧ c2 = ':' then '_' :: rest
    else c1 :: replaceColons (c2 :: rest)

/-- Result of `split_name`: the leaf `variable` (field `var`; `variable`
is reserved in Lean) and the owning `module`. -/
structure SplitNameResult where
  var : Str
  module : Str
deriving DecidableEq

/-- The client script function `split_name(source)`: split on `"::"`, pop the
last segment as the variable, rejoin the remaining segments as the
module. -/
def split_name (source : Str) : SplitNameResult :=
  let split := splitColons source
  { var := split.getLast?.getD []
    module := joinColons split.dropLast }

theorem splitColons_ne_nil : ∀ l : Str, splitColons l ≠ [] := by
  intro l
  induction l using splitColons.induct with
  | case1 => simp [splitColons]
  | case2 c => simp [splitColons]
  | case3 c1 c2 rest h ih => simp [splitColons, h]
  | case4 c1 c2 rest h ih heq => simp_all [splitColons]
  | case5 c1 c2 rest h s ss ih heq => simp [splitColons, h, ih]

theorem joinColons_splitColons : ∀ l : Str, joinColons (splitColons l) = l := by
  intro l
  induction l using splitColons.induct with
  | case1 => simp [splitColons, joinColons]
  | case2 c => simp [splitColons, joinColons]
  | case3 c1 c2 rest h ih =>
    obtain ⟨q, qs, hq⟩ := List.exists_cons_of_ne_nil (splitColons_ne_nil rest)
    rw [splitColons, if_pos h, hq, joinColons, ← hq, ih]
    simp [h.1, h.2]
  | case4 c1 c2 rest h hnil ihr => exact absurd hnil (splitColons_ne_nil _)
  | case5 c1 c2 rest h s ss hsp ihr =>
    rw [splitColons, if_neg h, hsp]
    rw [hsp] at ihr
    cases ss with
    | nil => simpa [joinColons] using congrArg (c1 :: ·) ihr
    | cons t ts =>
      rw [joinColons] at ihr ⊢
      simp [ihr]

theorem splitColons_of_not_hasColons :
    ∀ l : Str, hasColons l = false → splitColons l = [l] := by
  intro l
  induction l using splitColons.induct with
  | case1 => intro _; simp [splitColons]
  | case2 c => intro _; simp [splitColons]
  | case3 c1 c2 rest h ih =>
    intro hc
    rw [hasColons] at hc
    simp [h.1, h.2] at hc
  | case4 c1 c2 rest h hnil ihr => exact absurd hnil (splitColons_ne_nil _)
  | case5 c1 c2 rest h s ss hsp ihr =>
    intro hc
    rw [hasColons] at hc
    simp only [Bool.or_eq_false_iff] at hc
    simp [splitColons, h, ihr hc.2]

theorem two_le_length_splitColons_of_hasColons :
    ∀ l : Str, hasColons l = true → 2 ≤ (splitColons l).length := by
  intro l
  induction l using splitColons.induct with
  | case1 => intro hc; simp [hasColons] at hc
  | case2 c => intro hc; simp [hasColons] at hc
  | case3 c1 c2 rest h ih =>
    intro _
    rw [splitColons, if_pos h]
    have h1 : 1 ≤ (splitColons rest).length :=
      List.length_pos.mpr (splitColons_ne_nil rest)
    simp only [List.length_cons]
    omega
  | case4 c1 c2 rest h hnil ihr => exact absurd hnil (splitColons_ne_nil _)
  | case5 c1 c2 rest h s ss hsp ihr =>
    intro hc
    rw [hasColons] at hc
    have hcc : (decide (c1 = ':') && decide (c2 = ':')) = false := by
      simpa using h
    rw [hcc, Bool.false_or] at hc
    have h2 := ihr hc
    rw [hsp] at h2
    rw [splitColons, if_neg h, hsp]
    simpa using h2

theorem joinColons_append_single (ps : List Str) (v : Str) (h : ps ≠ []) :
    joinColons (ps ++ [v]) = joinColons ps ++ ':' :: ':' :: v := by
  induction ps with
  | nil => exact absurd rfl h
  | cons a ps' ih =>
    cases ps' with
    | nil => simp [joinColons]
    | cons b ps'' =>
      simp [joinColons]
      exact ih (List.cons_ne_nil b ps'')

theorem splitColons_head (c : Char) (l : Str) (s : Str) (ss : List Str)
    (hs : splitColons (c :: l) = s :: ss) : s = [] ∨ ∃ t, s = c :: t := by
  cases l with
  | nil =>
    rw [splitColons] at hs
    injection hs with h1 _
    right; exact ⟨[], h1.symm⟩
  | cons c2 rest =>
    rw [splitColons] at hs
    by_cases h : c = ':' ∧ c2 = ':'
    · rw [if_pos h] at hs
      injection hs with h1 _
      left; exact h1.symm
    · rw [if_neg h] at hs
      obtain ⟨q, qs, hq⟩ := List.exists_cons_of_ne_nil (splitColons_ne_nil (c2 :: rest))
      rw [hq] at hs
      injection hs with h1 _
      right; exact ⟨q, h1.symm⟩

theorem not_hasColons_of_mem_splitColons :
    ∀ l : Str, ∀ p ∈ splitColons l, hasColons p = false := by
  intro l
  induction l using splitColons.induct with
  | case1 =>
    intro p hp
    simp [splitColons] at hp
    simp [hp, hasColons]
  | case2 c =>
    intro p hp
    simp [splitColons] at hp
    simp [hp, hasColons]
  | case3 c1 c2 rest h ih =>
    intro p hp
    rw [splitColons, if_pos h] at hp
    rcases List.mem_cons.mp hp with h1 | h1
    · simp [h1, hasColons]
    · exact ih p h1
  | case4 c1 c2 rest h hnil ihr =>
    intro p hp
    exact absurd hnil (splitColons_ne_nil _)
  | case5 c1 c2 rest h s ss hsp ihr =>
    intro p hp
    rw [splitColons, if_neg h, hsp] at hp
    rcases List.mem_cons.mp hp with h1 | h1
    · subst h1
      have hs : hasColons s = false :=
        ihr s (by rw [hsp]; exact List.mem_cons_self s ss)
      rcases splitColons_head c2 rest s ss hsp with h2 | ⟨t, h2⟩
      · subst h2; simp [hasColons]
      · subst h2
        rw [hasColons]
        have hcc : (decide (c1 = ':') && decide (c2 = ':')) = false := by
          simpa using h
        rw [hcc, Bool.false_or]
        exact hs
    · exact ihr p (by rw [hsp]; exact List.mem_cons_of_mem s h1)

theorem replaceColons_of_not_hasColons :
    ∀ l : Str, hasColons l = false → replaceColons l = l := by
  intro l
  induction l using replaceColons.induct with
  | case1 => intro _; simp [replaceColons]
  | case2 c => intro _; simp [replaceColons]
  | case3 c1 c2 rest h =>
    intro hc
    rw [hasColons] at hc
    simp [h.1, h.2] at hc
  | case4 c1 c2 rest h ih =>
    intro hc
    rw [hasColons] at hc
    simp only [Bool.or_eq_false_iff] at hc
    simp [replaceColons, h, ih hc.2]

/-- C2: for every qualified name containing at least one `"::"` separator,
`split_name` returns the piece after the final separator as the variable and
the piece before it as the group: rejoining `module ++ "::" ++ var` gives
back the original name, and the returned variable contains no further
`"::"` separator. -/
theorem split_name_roundtrip (source : Str) (h : hasColons source = true) :
    (split_name source).module ++ ':' :: ':' :: (split_name source).var = source ∧
      hasColons (split_name source).var = false := by
  have h2 : 2 ≤ (splitColons source).length :=
    two_le_length_splitColons_of_hasColons source h
  have hne : splitColons source ≠ [] := splitColons_ne_nil source
  have hvar : (split_name source).var = (splitColons source).getLast hne := by
    rw [split_name]
    simp [List.getLast?_eq_getLast _ hne]
  have hmod : (split_name source).module = joinColons (splitColons source).dropLast := rfl
  constructor
  · have hdne : (splitColons source).dropLast ≠ [] := by
      have := List.length_dropLast (splitColons source)
      intro hd
      rw [hd] at this
      simp at this
      omega
    rw [hvar, hmod, ← joinColons_append_single _ _ hdne,
      List.dropLast_append_getLast hne, joinColons_splitColons]
  · rw [hvar]
    exact not_hasColons_of_mem_splitColons source _ (List.getLast_mem hne)

theorem split_name_roundtrip_witness :
    hasColons (toL "physics::gravity") = true ∧
      ((split_name (toL "physics::gravity")).module ++ ':' :: ':' ::
          (split_name (toL "physics::gravity")).var = toL "physics::gravity" ∧
        hasColons (split_name (toL "physics::gravity")).var = false) :=
  ⟨by decide, split_name_roundtrip (toL "physics::gravity") (by decide)⟩

/-- C9: for every input string containing no `"::"` separator, `split_name`
succeeds (it is total, there is no error case) and returns an empty group
together with the whole input string as the variable. -/
theorem split_name_no_separator (source : Str) (h : hasColons source = false) :
    split_name source = ⟨source, []⟩ := by
  simp [split_name, splitColons_of_not_hasColons source h, joinColons]

theorem split_name_no_separator_witness :
    hasColons (toL "gravity") = false ∧
      split_name (toL "gravity") = ⟨toL "gravity", []⟩ :=
  ⟨by decide, split_name_no_separator (toL "gravity") (by decide)⟩

/-- One Change Log entry: the qualified name and its rendered line. -/
abbrev Entry := Str × Str

/-- JavaScript `changed_values.set(key, line)`: `Map.prototype.set` on an
insertion-ordered association list — if the key is already present its value
is overwritten in place (the entry keeps its position), otherwise the new
entry is appended at the end of the iteration order. -/
def record : List Entry → Str → Str → List Entry
  | [], key, line => [(key, line)]
  | (k, l) :: rest, key, line =>
    if k = key then (key, line) :: rest
    else (k, l) :: record rest key line

/-- Replay a sequence of `record` calls (later edits) against a change log. -/
def applyRecords : List Entry → List Entry → List Entry
  | log, [] => log
  | log, p :: rest => applyRecords (record log p.1 p.2) rest

theorem record_of_not_mem (log : List Entry) (key line : Str)
    (h : key ∉ log.map Prod.fst) : record log key line = log ++ [(key, line)] := by
  induction log with
  | nil => rfl
  | cons e rest ih =>
    obtain ⟨k, l⟩ := e
    simp only [List.map_cons, List.mem_cons, not_or] at h
    rw [record, if_neg (fun hk => h.1 hk.symm), ih h.2, List.cons_append]

theorem mem_keys_record (log : List Entry) (key line a : Str) :
    a ∈ (record log key line).map Prod.fst ↔ a ∈ log.map Prod.fst ∨ a = key := by
  induction log with
  | nil => simp [record]
  | cons e rest ih =>
    obtain ⟨k, l⟩ := e
    by_cases hk : k = key
    · subst hk
      simp [record]
      tauto
    · rw [record, if_neg hk]
      simp [ih]
      tauto

theorem length_record_of_mem (log : List Entry) (key line : Str)
    (h : key ∈ log.map Prod.fst) : (record log key line).length = log.length := by
  induction log with
  | nil => simp at h
  | cons e rest ih =>
    obtain ⟨k, l⟩ := e
    by_cases hk : k = key
    · rw [record, if_pos hk]
      simp
    · rw [record, if_neg hk]
      simp only [List.map_cons, List.mem_cons] at h
      rcases h with h | h
      · exact absurd h.symm hk
      · simp [ih h]

theorem record_append_of_mem (A C : List Entry) (key line : Str)
    (h : key ∈ A.map Prod.fst) :
    record (A ++ C) key line = record A key line ++ C := by
  induction A with
  | nil => simp at h
  | cons e rest ih =>
    obtain ⟨k, l⟩ := e
    by_cases hk : k = key
    · simp [record, hk]
    · rw [List.cons_append, record, if_neg hk, record, if_neg hk]
      simp only [List.map_cons, List.mem_cons] at h
      rcases h with h | h
      · exact absurd h.symm hk
      · rw [ih h, List.cons_append]

theorem record_append_of_not_mem (A C : List Entry) (key line : Str)
    (h : key ∉ A.map Prod.fst) :
    record (A ++ C) key line = A ++ record C key line := by
  induction A with
  | nil => simp
  | cons e rest ih =>
    obtain ⟨k, l⟩ := e
    simp only [List.map_cons, List.mem_cons, not_or] at h
    rw [List.cons_append, record, if_neg (fun hk => h.1 hk.symm), ih h.2,
      List.cons_append]

theorem filter_key_of_not_mem (l : List Entry) (key : Str)
    (h : key ∉ l.map Prod.fst) :
    l.filter (fun e => e.1 = key) = [] := by
  induction l with
  | nil => rfl
  | cons e rest ih =>
    simp only [List.map_cons, List.mem_cons, not_or] at h
    rw [List.filter_cons, if_neg (by simpa using fun hh => h.1 hh.symm)]
    exact ih h.2

theorem record_preserves_shape (k1 L1 key line : Str) (hne : key ≠ k1)
    (A B : List Entry) (hA : k1 ∉ A.map Prod.fst) (hB : k1 ∉ B.map Prod.fst) :
    ∃ A' B' : List Entry,
      record (A ++ (k1, L1) :: B) key line = A' ++ (k1, L1) :: B' ∧
        A'.length = A.length ∧ k1 ∉ A'.map Prod.fst ∧ k1 ∉ B'.map Prod.fst := by
  by_cases hm : key ∈ A.map Prod.fst
  · refine ⟨record A key line, B, record_append_of_mem A _ key line hm,
      length_record_of_mem A key line hm, ?_, hB⟩
    intro hk
    rcases (mem_keys_record A key line k1).mp hk with h | h
    · exact hA h
    · exact hne h.symm
  · refine ⟨A, record B key line, ?_, rfl, hA, ?_⟩
    · rw [record_append_of_not_mem A _ key line hm, record,
        if_neg (fun h => hne h.symm)]
    · intro hk
      rcases (mem_keys_record B key line k1).mp hk with h | h
      · exact hB h
      · exact hne h.symm

theorem applyRecords_preserves_shape (k1 L1 : Str) (ops : List Entry)
    (hops : ∀ p ∈ ops, p.1 ≠ k1) :
    ∀ A B : List Entry, k1 ∉ A.map Prod.fst → k1 ∉ B.map Prod.fst →
      ∃ A' B' : List Entry,
        applyRecords (A ++ (k1, L1) :: B) ops = A' ++ (k1, L1) :: B' ∧
          A'.length = A.length ∧ k1 ∉ A'.map Prod.fst ∧ k1 ∉ B'.map Prod.fst := by
  induction ops with
  | nil => intro A B hA hB; exact ⟨A, B, rfl, rfl, hA, hB⟩
  | cons p rest ih =>
    intro A B hA hB
    obtain ⟨A', B', heq, hlen, hA', hB'⟩ :=
      record_preserves_shape k1 L1 p.1 p.2 (hops p (List.mem_cons_self p rest))
        A B hA hB
    obtain ⟨A'', B'', heq2, hlen2, hA'', hB''⟩ :=
      ih (fun q hq => hops q (List.mem_cons_of_mem p hq)) A' B' hA' hB'
    refine ⟨A'', B'', ?_, by rw [hlen2, hlen], hA'', hB''⟩
    rw [applyRecords, heq, heq2]

/-- C3: after `record(k1, L1)` followed later by `record(k1, L2)` — with any
records to other keys in between — the Change Log contains exactly one entry
for `k1`, its line is `L2`, and its position in iteration order is the
position of its first insertion (the end of the original log): the final log
is `A ++ (k1, L2) :: B` where `A` has the original log's length and neither
`A` nor `B` contains `k1`. -/
theorem record_last_write_wins (log ops : List Entry) (k1 L1 L2 : Str)
    (hk : k1 ∉ log.map Prod.fst) (hops : ∀ p ∈ ops, p.1 ≠ k1) :
    ∃ A B : List Entry,
      record (applyRecords (record log k1 L1) ops) k1 L2 = A ++ (k1, L2) :: B ∧
        A.length = log.length ∧ k1 ∉ A.map Prod.fst ∧ k1 ∉ B.map Prod.fst ∧
        (A ++ (k1, L2) :: B).filter (fun e => e.1 = k1) = [(k1, L2)] := by
  have h1 : record log k1 L1 = log ++ (k1, L1) :: [] := record_of_not_mem log k1 L1 hk
  obtain ⟨A, B, heq, hlen, hA, hB⟩ :=
    applyRecords_preserves_shape k1 L1 ops hops log [] hk (by simp)
  refine ⟨A, B, ?_, hlen, hA, hB, ?_⟩
  · rw [h1, heq, record_append_of_not_mem A _ k1 L2 hA, record, if_pos rfl]
  · rw [List.filter_append, filter_key_of_not_mem A k1 hA, List.filter_cons,
      if_pos (by simp), filter_key_of_not_mem B k1 hB]
    rfl

theorem record_last_write_wins_witness :
    (toL "physics::speed" ∉ ([(toL "physics::gravity", toL "g")] : List Entry).map Prod.fst) ∧
      (∀ p ∈ ([(toL "physics::drag", toL "d"), (toL "ui::title", toL "t")] : List Entry),
        p.1 ≠ toL "physics::speed") ∧
      ∃ A B : List Entry,
        record (applyRecords (record [(toL "physics::gravity", toL "g")]
              (toL "physics::speed") (toL "L1"))
            [(toL "physics::drag", toL "d"), (toL "ui::title", toL "t")])
          (toL "physics::speed") (toL "L2") = A ++ (toL "physics::speed", toL "L2") :: B ∧
          A.length = 1 ∧ toL "physics::speed" ∉ A.map Prod.fst ∧
          toL "physics::speed" ∉ B.map Prod.fst ∧
          (A ++ (toL "physics::speed", toL "L2") :: B).filter
            (fun e => e.1 = toL "physics::speed") = [(toL "physics::speed", toL "L2")] :=
  ⟨by decide, by decide,
    record_last_write_wins [(toL "physics::gravity", toL "g")]
      [(toL "physics::drag", toL "d"), (toL "ui::title", toL "t")]
      (toL "physics::speed") (toL "L1") (toL "L2") (by decide) (by decide)⟩

/-- The declaration line built by `changed_value`: for kind `"string"` the
value is wrapped in double quotes and typed `&str`; for any other kind the
value is emitted verbatim with the literal kind name as the declared type. -/
def renderLine (variableName value data_type : Str) : Str :=
  if data_type = toL "string" then
    toL "const " ++ variableName ++ toL ": &str = \"" ++ value ++ toL "\";"
  else
    toL "const " ++ variableName ++ toL ": " ++ data_type ++ toL " = " ++ value ++ toL ";"

/-- The output-accumulating loop in `changed_value`: iterate the change log
in insertion order and append `line + "\n"` for every entry whose key's
derived module equals `group`. -/
def renderGroupLoop (group : Str) : List Entry → Str → Str
  | [], output => output
  | (k, l) :: rest, output =>
    renderGroupLoop group rest
      (if (split_name k).module = group then output ++ l ++ toL "\n" else output)

/-- Grouped re-render: the loop of `changed_value`, started with the empty
accumulator. -/
def renderGroup (group : Str) (log : List Entry) : Str :=
  renderGroupLoop group log []

/-- The id of the text-view element `changed_value` writes the group text
into: `names.module.replace("::", "_") + "_output"` (JavaScript `replace`
with a string pattern replaces only the first occurrence). -/
def outputElementId (group : Str) : Str := replaceColons group ++ toL "_output"

/-- The observable outcome of one `changed_value` call: the updated change
log, the id of the element written to, and the text written into it. -/
structure ChangedValueResult where
  log : List Entry
  outputId : Str
  outputText : Str
deriving DecidableEq

/-- The client script function `changed_value(source, value, data_type)`:
derive the name parts, render the line, overwrite-or-append it in the map,
recompute the whole group's text and write it to the group's output
element. -/
def changed_value (log : List Entry) (source value data_type : Str) :
    ChangedValueResult :=
  let names := split_name source
  let line := renderLine names.var value data_type
  let log' := record log source line
  { log := log'
    outputId := outputElementId names.module
    outputText := renderGroup names.module log' }

theorem renderGroupLoop_eq (group : Str) (log : List Entry) (output : Str) :
    renderGroupLoop group log output =
      output ++ (List.map (fun e => e.2 ++ toL "\n")
        (log.filter (fun e => (split_name e.1).module = group))).flatten := by
  induction log generalizing output with
  | nil => simp [renderGroupLoop]
  | cons e rest ih =>
    obtain ⟨k, l⟩ := e
    by_cases h : (split_name k).module = group
    · rw [renderGroupLoop, if_pos h, ih, List.filter_cons, if_pos (by simpa using h)]
      simp
    · rw [renderGroupLoop, if_neg h, ih, List.filter_cons, if_neg (by simpa using h)]

/-- C1: `renderGroup g` returns exactly the concatenation, in insertion
order, of the lines of those entries whose key's derived group equals `g`,
each followed by a line break; entries whose derived group differs from `g`
contribute nothing to the output. -/
theorem renderGroup_eq_filter (group : Str) (log : List Entry) :
    renderGroup group log =
      (List.map (fun e => e.2 ++ toL "\n")
        (log.filter (fun e => (split_name e.1).module = group))).flatten := by
  rw [renderGroup, renderGroupLoop_eq]
  simp

/-- C4: `renderLine` produces exactly one declaration line — for kind
`"string"` the value is wrapped in double quotes and declared as `&str`,
for any other kind the value is emitted verbatim with the literal kind name
as the declared type. -/
theorem renderLine_cases (variableName value data_type : Str) :
    (data_type = toL "string" →
      renderLine variableName value data_type =
        toL "const " ++ variableName ++ toL ": &str = \"" ++ value ++ toL "\";") ∧
      (data_type ≠ toL "string" →
        renderLine variableName value data_type =
          toL "const " ++ variableName ++ toL ": " ++ data_type ++ toL " = " ++
            value ++ toL ";") := by
  constructor
  · intro h
    rw [renderLine, if_pos h]
  · intro h
    rw [renderLine, if_neg h]

theorem renderLine_cases_witness :
    renderLine (toL "title") (toL "Hello") (toL "string") =
        toL "const title: &str = \"Hello\";" ∧
      renderLine (toL "gravity") (toL "9.8") (toL "f64") =
        toL "const gravity: f64 = 9.8;" :=
  ⟨((renderLine_cases (toL "title") (toL "Hello") (toL "string")).1 rfl).trans
      (by decide),
    ((renderLine_cases (toL "gravity") (toL "9.8") (toL "f64")).2 (by decide)).trans
      (by decide)⟩

/-- C10: the string-kind renderer performs no escaping or transformation —
for every value the rendered line is literally `const `, the variable,
`: &str = "`, the value's characters verbatim, and `";`, even when the value
contains double quotes, backslashes or newlines. -/
theorem renderLine_string_verbatim (variableName value : Str) :
    renderLine variableName value (toL "string") =
      toL "const " ++ variableName ++ toL ": &str = \"" ++ value ++ toL "\";" := by
  rw [renderLine, if_pos rfl]

/-- C8 as stated fails on the code: for the edit `a::b::c` the derived group
is `a::b`, but the element id actually addressed is `a_b_output` — the
script replaces the first `"::"` of the group by `"_"` before appending
`"_output"` — which differs from `a::b_output`. -/
theorem outputId_not_group_append_output :
    (changed_value [] (toL "a::b::c") (toL "1") (toL "f64")).outputId ≠
      (split_name (toL "a::b::c")).module ++ toL "_output" := by decide

/-- C8 amended: on every edit the recomputed group text is written to the
element whose id is the derived group with its first `"::"` occurrence
replaced by `"_"`, followed by `"_output"`; whenever the group contains no
`"::"` (in particular for every two-segment qualified name) this id is
exactly the group followed by `"_output"`. -/
theorem outputId_replaceColons (log : List Entry) (source value data_type : Str) :
    (changed_value log source value data_type).outputId =
      replaceColons (split_name source).module ++ toL "_output" ∧
      (hasColons (split_name source).module = false →
        (changed_value log source value data_type).outputId =
          (split_name source).module ++ toL "_output") := by
  constructor
  · rfl
  · intro h
    show outputElementId (split_name source).module = _
    rw [outputElementId, replaceColons_of_not_hasColons _ h]

theorem outputId_replaceColons_witness :
    hasColons (split_name (toL "physics::gravity")).module = false ∧
      (changed_value [] (toL "physics::gravity") (toL "9.8") (toL "f64")).outputId =
        (split_name (toL "physics::gravity")).module ++ toL "_output" :=
  ⟨by decide,
    (outputId_replaceColons [] (toL "physics::gravity") (toL "9.8") (toL "f64")).2
      (by decide)⟩

/-- Outcome of the asynchronous `fetch` of an update request: either it
completes (the client never inspects the HTTP status) or it fails at the
transport level with an error detail. -/
inductive NetworkOutcome where
  | success : NetworkOutcome
  | failure (err : Str) : NetworkOutcome
deriving DecidableEq

/-- The observable effects of one `send` call: the label element addressed
and the text written to it, the status-element text produced by the `catch`
handler (if any), and the `changed_value` effects. -/
structure SendResult where
  labelId : Str
  labelText : Str
  statusMsg : Option Str
  log : List Entry
  outputId : Str
  outputText : Str
deriving DecidableEq

/-- The client script function `send(source, value, data_type)`, with the
eventual fate of its fire-and-forget `fetch` passed in as `outcome`: the
label update and the `changed_value` pipeline run unconditionally; only the
status message depends on the network outcome. -/
def send (log : List Entry) (source value data_type : Str)
    (outcome : NetworkOutcome) : SendResult :=
  let cv := changed_value log source value data_type
  { labelId := source ++ toL "_label"
    labelText := value
    statusMsg := match outcome with
      | .success => none
      | .failure err => some (toL "HTTP Error: " ++ err)
    log := cv.log
    outputId := cv.outputId
    outputText := cv.outputText }

/-- What one `poll` handler invocation does. -/
inductive PollAction where
  | reload : PollAction
  | noop : PollAction
deriving DecidableEq

/-- Outcome of the poll's `fetch('/should_refresh')`: a response body, or a
transport-level failure with an error detail. -/
inductive PollOutcome where
  | response (body : Str) : PollOutcome
  | failure (err : Str) : PollOutcome
deriving DecidableEq

/-- Whether a poll outcome is a transport-level failure. -/
def PollOutcome.isFailure : PollOutcome → Bool
  | .response _ => false
  | .failure _ => true

/-- The observable effects of handling one poll outcome: the action taken,
the status-element text produced by the `catch` handler (if any), and the
change log afterwards (the handler never touches `changed_values`). -/
structure PollResult where
  action : PollAction
  statusMsg : Option Str
  log : List Entry
deriving DecidableEq

/-- The `poll` handlers from the client script: a body equal to `"refresh"`
triggers `location.reload()`; any other body does nothing; a request failure
writes the error to the status element and does nothing else. -/
def pollHandle (log : List Entry) : PollOutcome → PollResult
  | .response body =>
    { action := if body = toL "refresh" then .reload else .noop
      statusMsg := none
      log := log }
  | .failure err =>
    { action := .noop
      statusMsg := some (toL "HTTP Error: " ++ err)
      log := log }

/-- The `setInterval(poll, ...)` loop: one outcome per tick, each handled
independently; a reload ends the page (and with it the ticking), every
other result leaves the schedule untouched. -/
def pollRun (log : List Entry) : List PollOutcome → List PollResult
  | [] => []
  | o :: rest =>
    let r := pollHandle log o
    if r.action = PollAction.reload then [r] else r :: pollRun log rest

theorem pollRun_reload_count_le_one (log : List Entry) :
    ∀ outcomes : List PollOutcome,
      ((pollRun log outcomes).filter
        (fun r => r.action = PollAction.reload)).length ≤ 1 := by
  intro outcomes
  induction outcomes with
  | nil => simp [pollRun]
  | cons o rest ih =>
    rw [pollRun]
    by_cases h : (pollHandle log o).action = PollAction.reload
    · rw [if_pos h]
      simp [h]
    · rw [if_neg h, List.filter_cons, if_neg (by simpa using h)]
      exact ih

/-- C5: handling a validity-check response with body exactly `"refresh"`
triggers the reload action, and over a whole run of ticks the reload happens
exactly once (it terminates the run); any other body — `"ok"`, the empty
string, anything unexpected — yields no reload, no status message, and
leaves the Change Log unchanged. -/
theorem poll_refresh_reload_once (log : List Entry) (body : Str)
    (outcomes : List PollOutcome) (hb : body ≠ toL "refresh")
    (ho : PollOutcome.response (toL "refresh") ∈ outcomes) :
    (pollHandle log (.response (toL "refresh"))).action = PollAction.reload ∧
      pollHandle log (.response body) = ⟨.noop, none, log⟩ ∧
      ((pollRun log outcomes).filter
        (fun r => r.action = PollAction.reload)).length = 1 := by
  refine ⟨by simp [pollHandle], by simp [pollHandle, hb], ?_⟩
  induction outcomes with
  | nil => simp at ho
  | cons o rest ih =>
    rw [pollRun]
    by_cases h : (pollHandle log o).action = PollAction.reload
    · rw [if_pos h]
      simp [h]
    · rw [if_neg h, List.filter_cons, if_neg (by simpa using h)]
      rcases List.mem_cons.mp ho with h1 | h1
      · exfalso
        apply h
        rw [← h1]
        simp [pollHandle]
      · exact ih h1

theorem poll_refresh_reload_once_witness :
    toL "ok" ≠ toL "refresh" ∧
      PollOutcome.response (toL "refresh") ∈
        [PollOutcome.response (toL "ok"), PollOutcome.response (toL "refresh"),
          PollOutcome.response (toL "x")] ∧
      ((pollHandle [] (.response (toL "refresh"))).action = PollAction.reload ∧
        pollHandle [] (.response (toL "ok")) = ⟨.noop, none, []⟩ ∧
        ((pollRun []
            [PollOutcome.response (toL "ok"), PollOutcome.response (toL "refresh"),
              PollOutcome.response (toL "x")]).filter
          (fun r => r.action = PollAction.reload)).length = 1) :=
  ⟨by decide, by decide,
    poll_refresh_reload_once [] (toL "ok")
      [PollOutcome.response (toL "ok"), PollOutcome.response (toL "refresh"),
        PollOutcome.response (toL "x")] (by decide) (by decide)⟩

/-- C6: when the update request fails at the network level, the status
element receives a message containing the error detail, and the Change Log,
the output element addressed and the group text written are exactly what
they are on success — the optimistic local update does not depend on the
network outcome. -/
theorem send_failure_optimistic (log : List Entry)
    (source value data_type err : Str) :
    (send log source value data_type (.failure err)).statusMsg =
      some (toL "HTTP Error: " ++ err) ∧
      (send log source value data_type (.failure err)).log =
        (send log source value data_type .success).log ∧
      (send log source value data_type (.failure err)).outputText =
        (send log source value data_type .success).outputText ∧
      (send log source value data_type (.failure err)).outputId =
        (send log source value data_type .success).outputId ∧
      (send log source value data_type (.failure err)).log =
        (changed_value log source value data_type).log ∧
      (send log source value data_type (.failure err)).outputText =
        (changed_value log source value data_type).outputText :=
  ⟨rfl, rfl, rfl, rfl, rfl, rfl⟩

/-- C7: a transport-level poll failure writes the error to the status
element, triggers no reload, and leaves the Change Log alone; and a run of
ticks whose requests all fail processes every tick — failures never
suppress, delay or limit subsequent polls. -/
theorem poll_failure_noop_continue (log : List Entry) (err : Str)
    (outcomes : List PollOutcome)
    (hf : ∀ o ∈ outcomes, PollOutcome.isFailure o = true) :
    pollHandle log (.failure err) =
      ⟨.noop, some (toL "HTTP Error: " ++ err), log⟩ ∧
      pollRun log outcomes = outcomes.map (pollHandle log) := by
  refine ⟨rfl, ?_⟩
  induction outcomes with
  | nil => rfl
  | cons o rest ih =>
    have h1 := hf o (List.mem_cons_self o rest)
    obtain ⟨e, he⟩ : ∃ e, o = PollOutcome.failure e := by
      cases o with
      | response body => simp [PollOutcome.isFailure] at h1
      | failure e => exact ⟨e, rfl⟩
    subst he
    rw [pollRun, List.map_cons]
    rw [if_neg (by simp [pollHandle])]
    rw [ih (fun q hq => hf q (List.mem_cons_of_mem _ hq))]

theorem poll_failure_noop_continue_witness :
    (∀ o ∈ [PollOutcome.failure (toL "e1"), PollOutcome.failure (toL "e2")],
      PollOutcome.isFailure o = true) ∧
      (pollHandle [] (.failure (toL "e1")) =
        ⟨.noop, some (toL "HTTP Error: e1"), []⟩ ∧
        pollRun [] [PollOutcome.failure (toL "e1"), PollOutcome.failure (toL "e2")] =
          [PollOutcome.failure (toL "e1"), PollOutcome.failure (toL "e2")].map
            (pollHandle [])) :=
  ⟨by decide,
    poll_failure_noop_continue [] (toL "e1")
      [PollOutcome.failure (toL "e1"), PollOutcome.failure (toL "e2")] (by decide)⟩

end ConstTweaker
